import Mathlib

/-!
Verification of the long-text analysis pipeline of the
`llm-information-extraction-workshop` repository
(`src/05_text_analysis/long_text_analyzer.py`, `interview_analyzer.py`,
`batch_analyzer.py`).

A Python `str` is modelled as a `List Char` (a sequence of code points).
Python's `str.strip()` / `str.split()` whitespace set and Lean's
`Char.isWhitespace` agree on the ASCII whitespace relevant here.
The Ollama inference client is modelled as an oracle of responses indexed
by call order (`Oracle := Nat → List Char`): the n-th model call made by an
operation returns `respond n`.  Prompt texts (which only feed the external
model) are therefore elided; the text samples that the source interpolates
into prompts are still defined below for reference.
-/

/-- A Python string literal, as its list of characters. -/
def lit (s : String) : List Char := s.data

/-- Python `str.strip()` (no arguments): remove leading and trailing
whitespace. -/
def pyStrip (s : List Char) : List Char :=
  ((s.dropWhile Char.isWhitespace).reverse.dropWhile Char.isWhitespace).reverse

/-- Python `needle in haystack` substring test. -/
def hasSub (l sub : List Char) : Bool := decide (sub <:+: l)

/-- Python `s.strip(c)` for a single-character strip set `c`. -/
def pyStripChar (c : Char) (l : List Char) : List Char :=
  ((l.dropWhile (· == c)).reverse.dropWhile (· == c)).reverse

/-- Helper for Python `s.split(sep)` with a one-character separator. -/
def splitOnCharAux (sep : Char) : List Char → List Char → List (List Char)
  | [], acc => [acc.reverse]
  | c :: cs, acc =>
    if c = sep then acc.reverse :: splitOnCharAux sep cs []
    else splitOnCharAux sep cs (c :: acc)

/-- Python `s.split(sep)` for a one-character separator (keeps empty
pieces, as Python does). -/
def splitOnChar (sep : Char) (l : List Char) : List (List Char) :=
  splitOnCharAux sep l []

/-- Helper for Python `text.split("\n\n")`. -/
def splitParagraphsAux : List Char → List Char → List (List Char)
  | [], acc => [acc.reverse]
  | [c], acc => [(c :: acc).reverse]
  | c :: c' :: cs, acc =>
    if c = '\n' ∧ c' = '\n' then acc.reverse :: splitParagraphsAux cs []
    else splitParagraphsAux (c' :: cs) (c :: acc)

/-- Python `text.split("\n\n")`, the paragraph split used by
`LongTextAnalyzer._chunk_text` (leftmost, non-overlapping matches of the
two-character separator; keeps empty pieces). -/
def splitParagraphs (text : List Char) : List (List Char) :=
  splitParagraphsAux text []

/-- The sentence-ending characters of the regex `[.!?]+` in
`_chunk_text`. -/
def isSentEnd (c : Char) : Bool := c == '.' || c == '!' || c == '?'

/-- Helper for Python `re.split(r"[.!?]+", paragraph)`: split on maximal
runs of sentence-ending punctuation (the delimiters are discarded, as
`re.split` discards them).  The flag records whether the previous
character was part of a punctuation run. -/
def splitSentencesAux : List Char → List Char → Bool → List (List Char)
  | [], acc, _ => [acc.reverse]
  | c :: cs, acc, inRun =>
    if isSentEnd c then
      if inRun then splitSentencesAux cs acc true
      else acc.reverse :: splitSentencesAux cs [] true
    else splitSentencesAux cs (c :: acc) false

/-- Python `re.split(r"[.!?]+", paragraph)`. -/
def splitSentences (paragraph : List Char) : List (List Char) :=
  splitSentencesAux paragraph [] false

/-- Helper for Python `text.split()` (split on whitespace runs, dropping
empty pieces). -/
def pyWordsAux : List Char → List Char → List (List Char)
  | [], acc => if acc.isEmpty then [] else [acc.reverse]
  | c :: cs, acc =>
    if c.isWhitespace then
      if acc.isEmpty then pyWordsAux cs [] else acc.reverse :: pyWordsAux cs []
    else
      pyWordsAux cs (c :: acc)

/-- Python `text.split()`: the whitespace-delimited tokens of `text`;
`len(text.split())` is the source's word count. -/
def pyWords (text : List Char) : List (List Char) := pyWordsAux text []

/-! ## The Chunker (`LongTextAnalyzer._chunk_text`)

The source fixes `self.max_chunk_size = 4000`; following the spec's
contract `chunk(text, max_size)` the threshold is a parameter `maxSize`
here, and the source instantiates it with 4000. -/

/-- One iteration of the inner `for sentence in sentences` loop of
`_chunk_text`, acting on the state `(chunks, current_chunk)`. -/
def sentenceStep (maxSize : Nat) (st : List (List Char) × List Char)
    (sentence : List Char) : List (List Char) × List Char :=
  if maxSize < (st.2 ++ sentence).length then
    if st.2 ≠ [] then (st.1 ++ [pyStrip st.2], sentence)
    else (st.1 ++ [sentence.take maxSize], st.2)
  else (st.1, st.2 ++ sentence)

/-- One iteration of the outer `for paragraph in paragraphs` loop of
`_chunk_text`. -/
def paragraphStep (maxSize : Nat) (st : List (List Char) × List Char)
    (paragraph : List Char) : List (List Char) × List Char :=
  if maxSize < paragraph.length then
    (splitSentences paragraph).foldl (sentenceStep maxSize) st
  else
    if maxSize < (st.2 ++ paragraph).length then
      (st.1 ++ [pyStrip st.2], paragraph)
    else (st.1, st.2 ++ '\n' :: '\n' :: paragraph)

/-- `LongTextAnalyzer._chunk_text(text)` with threshold `maxSize`
(4000 in the source). -/
def chunk_text (maxSize : Nat) (text : List Char) : List (List Char) :=
  let st := (splitParagraphs text).foldl (paragraphStep maxSize) ([], [])
  if pyStrip st.2 ≠ [] then st.1 ++ [pyStrip st.2] else st.1

/-- The sentences produced while chunking: the `re.split` pieces of every
paragraph that exceeds `maxSize` (only such paragraphs enter the sentence
path of `_chunk_text`). -/
def sentencesOver (maxSize : Nat) (text : List Char) : List (List Char) :=
  ((splitParagraphs text).map
    (fun p => if maxSize < p.length then splitSentences p else [])).flatten

/-- Joining a list of pieces with the paragraph separator `"\n\n"`
(inverse of `splitParagraphs`). -/
def sepJoin : List (List Char) → List Char
  | [] => []
  | [p] => p
  | p :: q :: ps => p ++ '\n' :: '\n' :: sepJoin (q :: ps)

/-- `true` iff the list is nonempty and starts with a non-whitespace
character. -/
def headNonWs : List Char → Bool
  | [] => false
  | c :: _ => !c.isWhitespace

/-- A "nice" paragraph: nonempty, and neither its first nor its last
character is whitespace (so `strip` leaves it unchanged). -/
def nicePar (l : List Char) : Bool := headNonWs l && headNonWs l.reverse

/-! ## The Extractor (`LongTextAnalyzer`) -/

/-- The inference client as an oracle of responses: `respond n` is the
text returned by the n-th Ollama call an operation makes (calls counted
from 0, in program order). -/
abbrev Oracle := Nat → List Char

/-- Re-index an oracle after `k` calls have already been made. -/
def shiftOracle (respond : Oracle) (k : Nat) : Oracle := fun i => respond (k + i)

/-- `TextAnalysis` dataclass of `long_text_analyzer.py`. -/
structure TextAnalysis where
  keywords : List (List Char)
  summary : List Char
  key_topics : List (List Char)
  sentiment : List Char
  word_count : Nat
  reading_time : Nat
  speakers : List (List Char)
deriving DecidableEq

/-- Python `[kw.strip() for kw in response.split(",")]`. -/
def splitCommaStrip (s : List Char) : List (List Char) :=
  (splitOnChar ',' s).map pyStrip

/-- The deduplicated union of the per-chunk keyword lists
(`unique_keywords = list(set(all_keywords))` in `extract_keywords`;
Python's set iteration order is unspecified, `List.dedup` is one
representative — every property stated below is order-insensitive). -/
def keywordUnion (respond : Oracle) (maxSize : Nat) (text : List Char) :
    List (List Char) :=
  (((List.range (chunk_text maxSize text).length).map
    (fun i => splitCommaStrip (respond i))).flatten).dedup

/-- `LongTextAnalyzer.extract_keywords`: one call per chunk, dedup, one
consolidation call if more than 20 distinct candidates, cap at 20.
Returns the keyword list and the number of Ollama calls made. -/
def extract_keywords (respond : Oracle) (maxSize : Nat) (text : List Char) :
    List (List Char) × Nat :=
  let chunks := chunk_text maxSize text
  let uniqueKeywords := keywordUnion respond maxSize text
  if 20 < uniqueKeywords.length then
    ((splitCommaStrip (respond chunks.length)).take 20, chunks.length + 1)
  else
    (uniqueKeywords.take 20, chunks.length)

/-- The kind of each Ollama call made by `generate_detailed_summary`
(`chunkSummary part total` is the per-chunk prompt "part i of n"). -/
inductive SummaryCall where
  | chunkSummary (part total : Nat)
  | consolidation
deriving DecidableEq

/-- `LongTextAnalyzer.generate_detailed_summary`: one summary call per
chunk, then one consolidation call iff more than one chunk.  Returns the
summary together with the sequence of calls made; `none` models the
`IndexError` that `chunk_summaries[0]` raises when the chunk list is
empty (whitespace-only input). -/
def generate_detailed_summary (respond : Oracle) (maxSize : Nat)
    (text : List Char) : Option (List Char × List SummaryCall) :=
  let chunks := chunk_text maxSize text
  let n := chunks.length
  let chunkCalls := (List.range n).map fun i => SummaryCall.chunkSummary (i + 1) n
  let chunkSummaries := (List.range n).map respond
  if 1 < chunkSummaries.length then
    some (respond n, chunkCalls ++ [SummaryCall.consolidation])
  else
    match chunkSummaries with
    | [] => none
    | s :: _ => some (s, chunkCalls)

/-- The representative sample `extract_key_topics` interpolates into its
prompt (`text[:3000] + "..." + text[-1000:]` for long texts).  It only
feeds the model, so it does not appear in the oracle-based result. -/
def key_topics_sample (text : List Char) : List Char :=
  if 4000 < text.length then
    text.take 3000 ++ lit "..." ++ text.drop (text.length - 1000)
  else text

/-- The leading markers stripped from response lines:
Python `line.strip().lstrip("- •*1234567890.")`. -/
def markerChars : List Char := lit "- •*1234567890."

/-- Line-oriented response parsing shared by topics, insights and themes:
`[line.strip().lstrip("- •*1234567890.") for line in response.split("\n")
if line.strip()]`. -/
def lineItems (response : List Char) : List (List Char) :=
  ((splitOnChar '\n' response).filter (fun l => !(pyStrip l).isEmpty)).map
    (fun l => (pyStrip l).dropWhile (fun c => markerChars.contains c))

/-- `LongTextAnalyzer.extract_key_topics`: one call, parse lines, cap at 8. -/
def extract_key_topics (respond : Oracle) (_text : List Char) :
    List (List Char) × Nat :=
  ((lineItems (respond 0)).take 8, 1)

/-- The head sample `analyze_sentiment` interpolates into its prompt. -/
def sentiment_sample (text : List Char) : List Char :=
  if 2000 < text.length then text.take 2000 else text

/-- The normalization `analyze_sentiment` applies to the raw model
response: `sentiment = response.strip().lower()`, then substring checks
in the fixed order Positive, Negative, Mixed, default Neutral.
(`Char.toLower` matches Python `str.lower` on the ASCII letters these
substrings consist of.) -/
def sentimentNormalize (response : List Char) : List Char :=
  let s := (pyStrip response).map Char.toLower
  if hasSub s (lit "positivo") || hasSub s (lit "positive") then lit "Positive"
  else if hasSub s (lit "negativo") || hasSub s (lit "negative") then lit "Negative"
  else if hasSub s (lit "mixto") || hasSub s (lit "mixed") then lit "Mixed"
  else lit "Neutral"

/-- `LongTextAnalyzer.analyze_sentiment`: one call, normalized. -/
def analyze_sentiment (respond : Oracle) (_text : List Char) :
    List Char × Nat :=
  (sentimentNormalize (respond 0), 1)

/-- The captures of `re.findall(r"^([A-Z][^:]+):", text, re.MULTILINE)`:
at each position where `^` matches (string start or just after a
newline), a match needs an ASCII uppercase letter, then at least one
non-colon character (greedily, possibly across newlines), then a colon;
scanning resumes after the consumed colon.  The flag records whether the
current position is at a line start. -/
def speakerFindAux : Nat → List Char → Bool → List (List Char)
  | 0, _, _ => []
  | _ + 1, [], _ => []
  | fuel + 1, c :: rest, bol =>
    if bol ∧ 'A' ≤ c ∧ c ≤ 'Z' then
      let run := rest.takeWhile (fun x => !(x == ':'))
      if run.length = 0 ∨ rest.length ≤ run.length then
        speakerFindAux fuel rest (c == '\n')
      else
        (c :: run) :: speakerFindAux fuel ((rest.drop run.length).drop 1) false
    else
      speakerFindAux fuel rest (c == '\n')

/-- `re.findall(r"^([A-Z][^:]+):", text, re.MULTILINE)` from
`identify_speakers`.  Every step of the scan consumes at least one
character, so `text.length + 1` steps of fuel make the scan total. -/
def speaker_patterns (text : List Char) : List (List Char) :=
  speakerFindAux (text.length + 1) text true

/-- `LongTextAnalyzer.identify_speakers`: the structural transcript
pattern first (deduplicated, no model call, no cap); otherwise one model
call, `"not applicable"` mapped to the empty list, else a comma-split
list capped at 10. -/
def identify_speakers (respond : Oracle) (text : List Char) :
    List (List Char) × Nat :=
  let pats := speaker_patterns text
  if pats ≠ [] then (pats.dedup, 0)
  else
    let response := respond 0
    let low := response.map Char.toLower
    if hasSub low (lit "not applicable") || hasSub low (lit "no aplica") then
      ([], 1)
    else
      ((((splitOnChar ',' response).map pyStrip).filter
        (fun t => !t.isEmpty)).take 10, 1)

/-- `LongTextAnalyzer.analyze_text`: word count and reading time computed
locally, then keywords, summary, topics, sentiment and speakers, each
consuming the oracle in program order.  Returns the analysis and the
total number of Ollama calls; `none` propagates the empty-chunk
`IndexError` of `generate_detailed_summary`. -/
def analyze_text (respond : Oracle) (maxSize : Nat) (text : List Char) :
    Option (TextAnalysis × Nat) :=
  let wordCount := (pyWords text).length
  let readingTime := max 1 (wordCount / 200)
  let kw := extract_keywords respond maxSize text
  match generate_detailed_summary (shiftOracle respond kw.2) maxSize text with
  | none => none
  | some (summary, sCalls) =>
    let c2 := kw.2 + sCalls.length
    let tp := extract_key_topics (shiftOracle respond c2) text
    let c3 := c2 + tp.2
    let st := analyze_sentiment (shiftOracle respond c3) text
    let c4 := c3 + st.2
    let sp := identify_speakers (shiftOracle respond c4) text
    some (⟨kw.1, summary, tp.1, st.1, wordCount, readingTime, sp.1⟩, c4 + sp.2)

/-! ## The Specializer (`InterviewAnalyzer`) -/

/-- `InterviewAnalysis` dataclass of `interview_analyzer.py` (a dataclass
extending `TextAnalysis`; the inherited fields are repeated here). -/
structure InterviewAnalysis where
  keywords : List (List Char)
  summary : List Char
  key_topics : List (List Char)
  sentiment : List Char
  word_count : Nat
  reading_time : Nat
  speakers : List (List Char)
  interview_type : List Char
  main_insights : List (List Char)
  quotes_highlights : List (List Char)
  questions_themes : List (List Char)
  interaction_style : List Char
  duration_estimate : Nat
deriving DecidableEq

/-- `InterviewAnalyzer.identify_interview_type`: one call, stripped. -/
def identify_interview_type (respond : Oracle) (_text : List Char) :
    List Char × Nat :=
  (pyStrip (respond 0), 1)

/-- `InterviewAnalyzer.extract_main_insights`: one call on `text[:3000]`,
parse lines, cap at 7. -/
def extract_main_insights (respond : Oracle) (_text : List Char) :
    List (List Char) × Nat :=
  ((lineItems (respond 0)).take 7, 1)

/-- `InterviewAnalyzer.extract_highlight_quotes`: one call, keep response
lines that are nonempty after stripping and contain a quote character,
strip surrounding quote characters, cap at 8. -/
def extract_highlight_quotes (respond : Oracle) (_text : List Char) :
    List (List Char) × Nat :=
  let response := respond 0
  let quotes :=
    ((splitOnChar '\n' response).filter
      (fun l => !(pyStrip l).isEmpty &&
        (l.contains '"' || l.contains (Char.ofNat 39)))).map
      (fun l => pyStripChar (Char.ofNat 39) (pyStripChar '"' (pyStrip l)))
  (quotes.take 8, 1)

/-- `InterviewAnalyzer.analyze_question_themes`: one call, parse lines,
cap at 6 (the question-pattern scan only feeds the prompt). -/
def analyze_question_themes (respond : Oracle) (_text : List Char) :
    List (List Char) × Nat :=
  ((lineItems (respond 0)).take 6, 1)

/-- `InterviewAnalyzer.analyze_interaction_style`: one call, stripped. -/
def analyze_interaction_style (respond : Oracle) (_text : List Char) :
    List Char × Nat :=
  (pyStrip (respond 0), 1)

/-- `InterviewAnalyzer.estimate_interview_duration`:
`max(1, len(text.split()) // 165)`, no model call. -/
def estimate_interview_duration (text : List Char) : Nat :=
  max 1 ((pyWords text).length / 165)

/-- `InterviewAnalyzer.analyze_interview`: first the whole base analysis
(`self.analyze_text(text)`), then the five interview-specific calls plus
the local duration estimate; the base fields of the result are copied
from the base analysis. -/
def analyze_interview (respond : Oracle) (maxSize : Nat) (text : List Char) :
    Option (InterviewAnalysis × Nat) :=
  match analyze_text respond maxSize text with
  | none => none
  | some (base, c) =>
    let it := identify_interview_type (shiftOracle respond c) text
    let mi := extract_main_insights (shiftOracle respond (c + it.2)) text
    let qh := extract_highlight_quotes
      (shiftOracle respond (c + it.2 + mi.2)) text
    let qt := analyze_question_themes
      (shiftOracle respond (c + it.2 + mi.2 + qh.2)) text
    let ia := analyze_interaction_style
      (shiftOracle respond (c + it.2 + mi.2 + qh.2 + qt.2)) text
    some (⟨base.keywords, base.summary, base.key_topics, base.sentiment,
           base.word_count, base.reading_time, base.speakers,
           it.1, mi.1, qh.1, qt.1, ia.1, estimate_interview_duration text⟩,
          c + it.2 + mi.2 + qh.2 + qt.2 + ia.2)

/-! ## The Batch Driver (`BatchAnalyzer`)

`process_files` submits one task per file to a thread pool and appends
one outcome per completed future; the outcome list is in completion
order, a permutation of submission order.  All properties claimed about
it (lengths, counts, per-document outcomes) are order-insensitive, so the
pool is modelled by mapping the per-file task over the submission list.
The per-document analysis pipeline (analyzer construction, `analyze_text`
or `analyze_interview`, report writing) is abstracted as `run`, which
either returns an analysis or raises an error message. -/

/-- A document handed to the batch driver: its path and either its text
or the I/O error reading it raises. -/
structure BatchDoc where
  file : List Char
  content : Except (List Char) (List Char)

/-- One entry of the result list built by
`BatchAnalyzer.analyze_single_file` / `process_files` (timestamp and
report path elided). -/
inductive BatchOutcome where
  | success (file : List Char) (wordCount keywordsCount topicsCount : Nat)
      (sentiment : List Char)
  | error (file : List Char) (errorMsg : List Char)
deriving DecidableEq

/-- `BatchAnalyzer.analyze_single_file`: read the file (I/O errors are
caught), short-circuit whitespace-only text to an error outcome, run the
analysis pipeline, and convert any raised error into an error outcome
carrying the error's message. -/
def analyze_single_file (run : List Char → Except (List Char) TextAnalysis)
    (doc : BatchDoc) : BatchOutcome :=
  match doc.content with
  | .error e => .error doc.file e
  | .ok text =>
    if (pyStrip text).isEmpty then .error doc.file (lit "Archivo vacío")
    else
      match run text with
      | .error e => .error doc.file e
      | .ok a =>
        .success doc.file a.word_count a.keywords.length a.key_topics.length
          a.sentiment

/-- `BatchAnalyzer.process_files`: one outcome per submitted file. -/
def process_files (run : List Char → Except (List Char) TextAnalysis)
    (docs : List BatchDoc) : List BatchOutcome :=
  docs.map (analyze_single_file run)

/-- Whether a document's per-task analysis fails (unreadable file, empty
text, or an error raised by the pipeline). -/
def docFails (run : List Char → Except (List Char) TextAnalysis)
    (doc : BatchDoc) : Bool :=
  match doc.content with
  | .error _ => true
  | .ok text =>
    (pyStrip text).isEmpty ||
      (match run text with | .error _ => true | .ok _ => false)

/-- Whether an outcome has `status == "error"`. -/
def isErrorOutcome : BatchOutcome → Bool
  | .error _ _ => true
  | .success _ _ _ _ _ => false

/-! ## Concrete fixtures used in counterexamples and witnesses -/

/-- A constant oracle: every call returns `"s"`. -/
def constResp : Oracle := fun _ => lit "s"

/-- Oracle for the keyword consolidation path: the single chunk call
returns 21 distinct keywords, the consolidation call returns a duplicated
pair. -/
def kwOracle : Oracle := fun i =>
  if i = 0 then lit "a,b,c,d,e,f,g,h,i,j,k,l,m,n,o,p,q,r,s,t,u" else lit "x,x"

/-- A per-document pipeline for batch fixtures: succeeds on `"hi"`,
raises `"boom"` otherwise. -/
def batchRun : List Char → Except (List Char) TextAnalysis := fun t =>
  if t = lit "hi" then
    Except.ok ⟨[], lit "ok", [], lit "Neutral", 1, 1, []⟩
  else Except.error (lit "boom")

/-- Four batch documents: one succeeding, one unreadable, one
whitespace-only, one whose analysis raises. -/
def batchDocs : List BatchDoc :=
  [⟨lit "a.txt", Except.ok (lit "hi")⟩,
   ⟨lit "b.txt", Except.error (lit "unreadable")⟩,
   ⟨lit "c.txt", Except.ok (lit "  ")⟩,
   ⟨lit "d.txt", Except.ok (lit "xx")⟩]

/-- A transcript with eleven distinct structural speaker labels. -/
def elevenSpeakers : List Char :=
  lit "AA: a\nBB: b\nCC: c\nDD: d\nEE: e\nFF: f\nGG: g\nHH: h\nII: i\nJJ: j\nKK: k"

/-- The base analysis `analyze_text constResp 4 (lit "ab")` produces. -/
def baseW : TextAnalysis :=
  ⟨[lit "s"], lit "s", [lit "s"], lit "Neutral", 1, 1, [lit "s"]⟩

/-- The interview analysis `analyze_interview constResp 4 (lit "ab")`
produces. -/
def iaW : InterviewAnalysis :=
  ⟨[lit "s"], lit "s", [lit "s"], lit "Neutral", 1, 1, [lit "s"],
   lit "s", [lit "s"], [], [lit "s"], lit "s", 1⟩

/-- Bundles the two substring checks of one sentiment label. -/
def sentLabelHit (low : List Char) (a b : String) : Bool :=
  hasSub low (lit a) || hasSub low (lit b)

example : splitParagraphs (lit "a\n\n\nb") = [lit "a", lit "\nb"] := by decide
example : splitParagraphs (lit "a\n\n\n\nb") = [lit "a", [], lit "b"] := by decide
example : splitSentences (lit "ab..cd!") = [lit "ab", lit "cd", []] := by decide
example : splitSentences (lit "....") = [[], []] := by decide
example : pyStrip (lit " \n\nab\n\ncd ") = lit "ab\n\ncd" := by decide
example : pyWords (lit "a b  c") = [lit "a", lit "b", lit "c"] := by decide
example : chunk_text 4 (lit "ab.cd") = [lit "abcd"] := by decide
example : chunk_text 4 (lit "ab\n\ncd\n\nef") = [lit "ab", lit "cd\n\nef"] := by
  decide
example : chunk_text 4000 (lit " ") = [] := by decide
example : chunk_text 1 (lit "..") = [] := by decide
example : chunk_text 2 (lit "ab\n\ncd\n\nef") = [lit "ab", lit "cd", lit "ef"] := by
  decide
example : speaker_patterns (lit "AA: x\nBB: hi") = [lit "AA", lit "BB"] := by decide
example : speaker_patterns (lit "A: x\nBB: hi") = [lit "BB"] := by decide
example : speaker_patterns (lit "Ab\ncd: x") = [lit "Ab\ncd"] := by decide
example : identify_speakers constResp (lit "hi") = ([lit "s"], 1) := by decide
example : sentimentNormalize (lit " Mixed but POSITIVE ") = lit "Positive" := by
  decide
example : analyze_text constResp 4 (lit "ab") = some (baseW, 5) := by decide
example : analyze_interview constResp 4 (lit "ab") = some (iaW, 10) := by decide

/-! ## Helper lemmas about stripping and whitespace -/

theorem dropWhile_ws_append {w l : List Char}
    (hw : ∀ c ∈ w, c.isWhitespace = true) :
    (w ++ l).dropWhile Char.isWhitespace = l.dropWhile Char.isWhitespace := by
  induction w with
  | nil => simp
  | cons c w ih =>
    have hc := hw c (by simp)
    simp only [List.cons_append, List.dropWhile_cons, hc, if_true]
    exact ih (fun x hx => hw x (by simp [hx]))

theorem headNonWs_dropWhile {l : List Char} (h : headNonWs l = true) :
    l.dropWhile Char.isWhitespace = l := by
  cases l with
  | nil => rfl
  | cons c t =>
    have hc : c.isWhitespace = false := by simpa [headNonWs] using h
    simp [List.dropWhile_cons, hc]

theorem nicePar_parts {l : List Char} (h : nicePar l = true) :
    headNonWs l = true ∧ headNonWs l.reverse = true := by
  simpa [nicePar, Bool.and_eq_true] using h

theorem nicePar_ne_nil {l : List Char} (h : nicePar l = true) : l ≠ [] := by
  cases l with
  | nil => simp [nicePar, headNonWs] at h
  | cons c t => simp

theorem pyStrip_of_nicePar {l : List Char} (h : nicePar l = true) :
    pyStrip l = l := by
  obtain ⟨h1, h2⟩ := nicePar_parts h
  unfold pyStrip
  rw [headNonWs_dropWhile h1, headNonWs_dropWhile h2, List.reverse_reverse]

theorem pyStrip_ws_append {w l : List Char}
    (hw : ∀ c ∈ w, c.isWhitespace = true) : pyStrip (w ++ l) = pyStrip l := by
  unfold pyStrip
  rw [dropWhile_ws_append hw]

theorem pyStrip_length_le (l : List Char) : (pyStrip l).length ≤ l.length := by
  unfold pyStrip
  have h1 := (List.dropWhile_sublist (l := l) Char.isWhitespace).length_le
  have h2 := (List.dropWhile_sublist (l := (l.dropWhile Char.isWhitespace).reverse)
    Char.isWhitespace).length_le
  simp only [List.length_reverse] at h1 h2 ⊢
  omega

theorem mem_dropWhile_of_not {p : Char → Bool} {l : List Char} {c : Char}
    (hc : c ∈ l) (h : p c = false) : c ∈ l.dropWhile p := by
  have hsplit := List.takeWhile_append_dropWhile (p := p) (l := l)
  rcases List.mem_append.1 (by rw [hsplit]; exact hc) with h1 | h2
  · exact absurd (List.mem_takeWhile_imp h1) (by simp [h])
  · exact h2

theorem pyStrip_ne_nil {l : List Char} {c : Char} (hc : c ∈ l)
    (hw : c.isWhitespace = false) : pyStrip l ≠ [] := by
  intro h
  unfold pyStrip at h
  rw [List.reverse_eq_nil_iff, List.dropWhile_eq_nil_iff] at h
  have h1 : c ∈ l.dropWhile Char.isWhitespace := mem_dropWhile_of_not hc hw
  have h2 := h c (by simpa using h1)
  simp [hw] at h2

/-! ## Helper lemmas about `sepJoin` and the paragraph split -/

theorem sepJoin_cons {p : List Char} {l : List (List Char)} (h : l ≠ []) :
    sepJoin (p :: l) = p ++ '\n' :: '\n' :: sepJoin l := by
  cases l with
  | nil => exact absurd rfl h
  | cons q t => rfl

theorem sepJoin_append_cons (xs : List (List Char)) (a b : List Char)
    (ys : List (List Char)) :
    sepJoin (xs ++ (a ++ '\n' :: '\n' :: b) :: ys) =
      sepJoin (xs ++ a :: b :: ys) := by
  induction xs with
  | nil =>
    cases ys with
    | nil => simp [sepJoin]
    | cons y t => simp [sepJoin_cons, List.append_assoc]
  | cons x xs ih =>
    rw [List.cons_append, List.cons_append,
      sepJoin_cons (by simp), sepJoin_cons (by simp), ih]

theorem splitParagraphsAux_ne_nil : ∀ (cs acc : List Char),
    splitParagraphsAux cs acc ≠ [] := by
  intro cs acc
  induction cs, acc using splitParagraphsAux.induct with
  | case1 acc => simp [splitParagraphsAux]
  | case2 c acc => simp [splitParagraphsAux]
  | case3 c c' cs acc h ih => simp [splitParagraphsAux, h]
  | case4 c c' cs acc h ih => simpa [splitParagraphsAux, h] using ih

theorem sepJoin_splitParagraphsAux : ∀ (cs acc : List Char),
    sepJoin (splitParagraphsAux cs acc) = acc.reverse ++ cs := by
  intro cs acc
  induction cs, acc using splitParagraphsAux.induct with
  | case1 acc => simp [splitParagraphsAux, sepJoin]
  | case2 c acc => simp [splitParagraphsAux, sepJoin]
  | case3 c c' cs acc h ih =>
    obtain ⟨rfl, rfl⟩ := h
    rw [splitParagraphsAux, if_pos ⟨rfl, rfl⟩,
      sepJoin_cons (splitParagraphsAux_ne_nil cs []), ih]
    simp
  | case4 c c' cs acc h ih =>
    rw [splitParagraphsAux, if_neg h, ih]
    simp

theorem sepJoin_splitParagraphs (text : List Char) :
    sepJoin (splitParagraphs text) = text := by
  simpa using sepJoin_splitParagraphsAux text []

theorem splitParagraphs_ne_nil (text : List Char) :
    splitParagraphs text ≠ [] :=
  splitParagraphsAux_ne_nil text []

theorem mem_sepJoin {c : Char} :
    ∀ {l : List (List Char)}, c ∈ sepJoin l → (∃ p ∈ l, c ∈ p) ∨ c = '\n' := by
  intro l
  induction l with
  | nil => intro h; simp [sepJoin] at h
  | cons p t ih =>
    intro h
    cases t with
    | nil => exact Or.inl ⟨p, by simp, by simpa [sepJoin] using h⟩
    | cons q t' =>
      rw [sepJoin_cons (by simp)] at h
      rcases List.mem_append.1 h with h1 | h2
      · exact Or.inl ⟨p, by simp, h1⟩
      · rcases h2 with _ | ⟨_, h3⟩
        · exact Or.inr rfl
        · rcases h3 with _ | ⟨_, h4⟩
          · exact Or.inr rfl
          · rcases ih h4 with ⟨p', hp', hc'⟩ | h5
            · exact Or.inl ⟨p', by simp [hp'], hc'⟩
            · exact Or.inr h5

theorem mem_splitSentencesAux :
    ∀ (cs acc : List Char) (inRun : Bool) {x : Char},
      (x ∈ acc ∨ x ∈ cs) → isSentEnd x = false →
      ∃ s ∈ splitSentencesAux cs acc inRun, x ∈ s := by
  intro cs
  induction cs with
  | nil =>
    intro acc inRun x hx hxe
    exact ⟨acc.reverse, by simp [splitSentencesAux], by
      simpa using hx.resolve_right (by simp)⟩
  | cons c cs ih =>
    intro acc inRun x hx hxe
    have hx' : x ∈ acc ∨ (x = c ∨ x ∈ cs) := by simpa using hx
    by_cases hc : isSentEnd c = true
    · have hxc : x ∈ acc ∨ x ∈ cs := by
        rcases hx' with h | h | h
        · exact Or.inl h
        · exact absurd (h ▸ hc) (by simp [hxe])
        · exact Or.inr h
      cases hr : inRun with
      | true =>
        rw [splitSentencesAux, if_pos hc]
        simpa using ih acc true hxc hxe
      | false =>
        rw [splitSentencesAux, if_pos hc]
        rcases hxc with h | h
        · exact ⟨acc.reverse, by simp, by simpa using h⟩
        · obtain ⟨s, hs, hxs⟩ := ih [] true (Or.inr h) hxe
          exact ⟨s, by simp [hs], hxs⟩
    · rw [splitSentencesAux, if_neg hc]
      apply ih (c :: acc) false _ hxe
      rcases hx' with h | h | h
      · exact Or.inl (by simp [h])
      · exact Or.inl (by simp [h])
      · exact Or.inr h

theorem mem_splitSentences {p : List Char} {x : Char} (hx : x ∈ p)
    (hxe : isSentEnd x = false) : ∃ s ∈ splitSentences p, x ∈ s :=
  mem_splitSentencesAux p [] false (Or.inr hx) hxe

/-! ## Size invariant of the chunker (for the `max_size` bound) -/

theorem sentenceFold_size (maxSize : Nat) (sents : List (List Char)) :
    ∀ (ss : List (List Char)) (st : List (List Char) × List Char),
      (∀ s ∈ ss, s ∈ sents) →
      (∀ c ∈ st.1, c.length ≤ maxSize + 2 ∨
        ∃ s ∈ sents, maxSize < s.length ∧ c = pyStrip s) →
      (st.2.length ≤ maxSize + 2 ∨
        ∃ s ∈ sents, maxSize < s.length ∧ st.2 = s) →
      (∀ c ∈ (ss.foldl (sentenceStep maxSize) st).1, c.length ≤ maxSize + 2 ∨
        ∃ s ∈ sents, maxSize < s.length ∧ c = pyStrip s) ∧
      ((ss.foldl (sentenceStep maxSize) st).2.length ≤ maxSize + 2 ∨
        ∃ s ∈ sents, maxSize < s.length ∧
          (ss.foldl (sentenceStep maxSize) st).2 = s) := by
  intro ss
  induction ss with
  | nil => exact fun st _ h1 h2 => ⟨h1, h2⟩
  | cons s ss ih =>
    intro st hss hch hcur
    rw [List.foldl_cons]
    have hs : s ∈ sents := hss s (by simp)
    refine ih (sentenceStep maxSize st s) (fun x hx => hss x (by simp [hx])) ?_ ?_
    · intro c hc
      unfold sentenceStep at hc
      split at hc
      · split at hc
        · rcases List.mem_append.1 hc with h | h
          · exact hch c h
          · have hc' : c = pyStrip st.2 := by simpa using h
            rcases hcur with h1 | ⟨s₀, hs₀, hlt, he⟩
            · exact Or.inl (hc' ▸ le_trans (pyStrip_length_le st.2) h1)
            · exact Or.inr ⟨s₀, hs₀, hlt, by rw [hc', he]⟩
        · rcases List.mem_append.1 hc with h | h
          · exact hch c h
          · have hc' : c = s.take maxSize := by simpa using h
            refine Or.inl ?_
            rw [hc']
            simp only [List.length_take]
            omega
      · exact hch c hc
    · unfold sentenceStep
      split
      · split
        · by_cases hlen : maxSize < s.length
          · exact Or.inr ⟨s, hs, hlen, rfl⟩
          · refine Or.inl ?_
            show s.length ≤ maxSize + 2
            omega
        · exact hcur
      · rename_i hle
        refine Or.inl ?_
        simp only [List.length_append] at hle ⊢
        omega

theorem paragraphFold_size (maxSize : Nat) (text : List Char) :
    ∀ (ps : List (List Char)) (st : List (List Char) × List Char),
      (∀ p ∈ ps, p ∈ splitParagraphs text) →
      (∀ c ∈ st.1, c.length ≤ maxSize + 2 ∨
        ∃ s ∈ sentencesOver maxSize text, maxSize < s.length ∧ c = pyStrip s) →
      (st.2.length ≤ maxSize + 2 ∨
        ∃ s ∈ sentencesOver maxSize text, maxSize < s.length ∧ st.2 = s) →
      (∀ c ∈ (ps.foldl (paragraphStep maxSize) st).1, c.length ≤ maxSize + 2 ∨
        ∃ s ∈ sentencesOver maxSize text, maxSize < s.length ∧ c = pyStrip s) ∧
      ((ps.foldl (paragraphStep maxSize) st).2.length ≤ maxSize + 2 ∨
        ∃ s ∈ sentencesOver maxSize text, maxSize < s.length ∧
          (ps.foldl (paragraphStep maxSize) st).2 = s) := by
  intro ps
  induction ps with
  | nil => exact fun st _ h1 h2 => ⟨h1, h2⟩
  | cons p ps ih =>
    intro st hps hch hcur
    rw [List.foldl_cons]
    have hp : p ∈ splitParagraphs text := hps p (by simp)
    refine ih (paragraphStep maxSize st p) (fun x hx => hps x (by simp [hx])) ?_ ?_
    · intro c hc
      unfold paragraphStep at hc
      split at hc
      · rename_i hlong
        have hmem : ∀ s ∈ splitSentences p, s ∈ sentencesOver maxSize text := by
          intro s hsp
          refine List.mem_flatten.2 ⟨splitSentences p, ?_, hsp⟩
          have := List.mem_map_of_mem
            (fun q => if maxSize < q.length then splitSentences q else []) hp
          simpa [if_pos hlong] using this
        exact (sentenceFold_size maxSize (sentencesOver maxSize text)
          (splitSentences p) st hmem hch hcur).1 c hc
      · split at hc
        · rcases List.mem_append.1 hc with h | h
          · exact hch c h
          · have hc' : c = pyStrip st.2 := by simpa using h
            rcases hcur with h1 | ⟨s₀, hs₀, hlt, he⟩
            · exact Or.inl (hc' ▸ le_trans (pyStrip_length_le st.2) h1)
            · exact Or.inr ⟨s₀, hs₀, hlt, by rw [hc', he]⟩
        · exact hch c hc
    · unfold paragraphStep
      split
      · rename_i hlong
        have hmem : ∀ s ∈ splitSentences p, s ∈ sentencesOver maxSize text := by
          intro s hsp
          refine List.mem_flatten.2 ⟨splitSentences p, ?_, hsp⟩
          have := List.mem_map_of_mem
            (fun q => if maxSize < q.length then splitSentences q else []) hp
          simpa [if_pos hlong] using this
        exact (sentenceFold_size maxSize (sentencesOver maxSize text)
          (splitSentences p) st hmem hch hcur).2
      · rename_i hshort
        split
        · refine Or.inl ?_
          show p.length ≤ maxSize + 2
          omega
        · rename_i hle
          refine Or.inl ?_
          simp only [List.length_append] at hle ⊢
          simp only [List.length_cons]
          omega

/-! ## Non-emptiness of the chunker output -/

theorem sentenceStep_chunks_mono (maxSize : Nat)
    (st : List (List Char) × List Char) (s : List Char) :
    ∃ l, (sentenceStep maxSize st s).1 = st.1 ++ l := by
  unfold sentenceStep
  split
  · split
    · exact ⟨[pyStrip st.2], rfl⟩
    · exact ⟨[s.take maxSize], rfl⟩
  · exact ⟨[], by simp⟩

theorem sentenceFold_chunks_mono (maxSize : Nat) :
    ∀ (ss : List (List Char)) (st : List (List Char) × List Char),
      ∃ l, (ss.foldl (sentenceStep maxSize) st).1 = st.1 ++ l := by
  intro ss
  induction ss with
  | nil => exact fun st => ⟨[], by simp⟩
  | cons s ss ih =>
    intro st
    rw [List.foldl_cons]
    obtain ⟨l1, h1⟩ := sentenceStep_chunks_mono maxSize st s
    obtain ⟨l2, h2⟩ := ih (sentenceStep maxSize st s)
    exact ⟨l1 ++ l2, by rw [h2, h1, List.append_assoc]⟩

theorem paragraphStep_chunks_mono (maxSize : Nat)
    (st : List (List Char) × List Char) (p : List Char) :
    ∃ l, (paragraphStep maxSize st p).1 = st.1 ++ l := by
  unfold paragraphStep
  split
  · exact sentenceFold_chunks_mono maxSize (splitSentences p) st
  · split
    · exact ⟨[pyStrip st.2], rfl⟩
    · exact ⟨[], by simp⟩

theorem paragraphFold_chunks_mono (maxSize : Nat) :
    ∀ (ps : List (List Char)) (st : List (List Char) × List Char),
      ∃ l, (ps.foldl (paragraphStep maxSize) st).1 = st.1 ++ l := by
  intro ps
  induction ps with
  | nil => exact fun st => ⟨[], by simp⟩
  | cons p ps ih =>
    intro st
    rw [List.foldl_cons]
    obtain ⟨l1, h1⟩ := paragraphStep_chunks_mono maxSize st p
    obtain ⟨l2, h2⟩ := ih (paragraphStep maxSize st p)
    exact ⟨l1 ++ l2, by rw [h2, h1, List.append_assoc]⟩


theorem sentenceFold_keep (maxSize : Nat) :
    ∀ (ss : List (List Char)) (st : List (List Char) × List Char),
      (ss.foldl (sentenceStep maxSize) st).1 = st.1 →
      (ss.foldl (sentenceStep maxSize) st).2 = st.2 ++ ss.flatten := by
  intro ss
  induction ss with
  | nil => intro st _; simp
  | cons s ss ih =>
    intro st h
    rw [List.foldl_cons] at h ⊢
    obtain ⟨l2, h2⟩ := sentenceFold_chunks_mono maxSize ss (sentenceStep maxSize st s)
    obtain ⟨l1, h1⟩ := sentenceStep_chunks_mono maxSize st s
    have hlen : st.1.length = st.1.length + l1.length + l2.length := by
      conv_lhs => rw [← h, h2, h1]
      simp only [List.length_append]
    have hl1 : l1 = [] := List.length_eq_zero.mp (by omega)
    have hstep1 : (sentenceStep maxSize st s).1 = st.1 := by
      rw [h1, hl1, List.append_nil]
    have hstep2 : (sentenceStep maxSize st s).2 = st.2 ++ s := by
      by_cases hc1 : maxSize < (st.2 ++ s).length
      · by_cases hc2 : st.2 = []
        · exfalso
          have hc1' : maxSize < s.length := by simpa [hc2] using hc1
          simp [sentenceStep, hc2, hc1'] at hstep1
        · exfalso
          have hc1' : maxSize < st.2.length + s.length := by
            simpa [List.length_append] using hc1
          simp [sentenceStep, hc1', hc2] at hstep1
      · simp only [sentenceStep, if_neg hc1]
    rw [ih (sentenceStep maxSize st s) (by rw [hstep1]; exact h), hstep2]
    simp [List.append_assoc]

theorem paragraphFold_keep (maxSize : Nat) :
    ∀ (ps : List (List Char)) (st : List (List Char) × List Char),
      (ps.foldl (paragraphStep maxSize) st).1 = st.1 →
      ∀ x : Char, isSentEnd x = false →
        (x ∈ st.2 ∨ ∃ p ∈ ps, x ∈ p) →
        x ∈ (ps.foldl (paragraphStep maxSize) st).2 := by
  intro ps
  induction ps with
  | nil =>
    intro st _ x _ hx
    rcases hx with h | ⟨p, hp, _⟩
    · simpa using h
    · simp at hp
  | cons p ps ih =>
    intro st h x hxe hx
    rw [List.foldl_cons] at h ⊢
    obtain ⟨l2, h2⟩ := paragraphFold_chunks_mono maxSize ps (paragraphStep maxSize st p)
    obtain ⟨l1, h1⟩ := paragraphStep_chunks_mono maxSize st p
    have hlen : st.1.length = st.1.length + l1.length + l2.length := by
      conv_lhs => rw [← h, h2, h1]
      simp only [List.length_append]
    have hl1 : l1 = [] := List.length_eq_zero.mp (by omega)
    have hstep1 : (paragraphStep maxSize st p).1 = st.1 := by
      rw [h1, hl1, List.append_nil]
    have hfold1 : (ps.foldl (paragraphStep maxSize) (paragraphStep maxSize st p)).1 =
        (paragraphStep maxSize st p).1 := by
      rw [hstep1]; exact h
    refine ih (paragraphStep maxSize st p) hfold1 x hxe ?_
    have hmemstep : ∀ y : Char, isSentEnd y = false →
        (y ∈ st.2 ∨ y ∈ p) → y ∈ (paragraphStep maxSize st p).2 := by
      intro y hye hy
      by_cases hlong : maxSize < p.length
      · have hsf1 : ((splitSentences p).foldl (sentenceStep maxSize) st).1 = st.1 := by
          have := hstep1
          simp only [paragraphStep, if_pos hlong] at this
          exact this
        have hsf2 := sentenceFold_keep maxSize (splitSentences p) st hsf1
        simp only [paragraphStep, if_pos hlong]
        rw [hsf2]
        rcases hy with hy | hy
        · exact List.mem_append.2 (Or.inl hy)
        · obtain ⟨s, hs, hys⟩ := mem_splitSentences hy hye
          exact List.mem_append.2 (Or.inr (List.mem_flatten.2 ⟨s, hs, hys⟩))
      · by_cases hc2 : maxSize < (st.2 ++ p).length
        · exfalso
          have := hstep1
          simp only [paragraphStep, if_neg hlong, if_pos hc2] at this
          simp at this
        · simp only [paragraphStep, if_neg hlong, if_neg hc2]
          rcases hy with hy | hy
          · exact List.mem_append.2 (Or.inl hy)
          · exact List.mem_append.2 (Or.inr (by simp [hy]))
    rcases hx with hmem | ⟨q, hq, hxq⟩
    · exact Or.inl (hmemstep x hxe (Or.inl hmem))
    · rcases List.mem_cons.1 hq with rfl | hq'
      · exact Or.inl (hmemstep x hxe (Or.inr hxq))
      · exact Or.inr ⟨q, hq', hxq⟩

/-! ## Reconstruction of the text from the chunks (paragraph-only mode) -/

theorem headNonWs_append_of {l r : List Char} (h : headNonWs l = true) :
    headNonWs (l ++ r) = true := by
  cases l with
  | nil => simp [headNonWs] at h
  | cons c t => simpa [headNonWs] using h

theorem nicePar_sep_append {a b : List Char} (ha : nicePar a = true)
    (hb : nicePar b = true) : nicePar (a ++ '\n' :: '\n' :: b) = true := by
  obtain ⟨ha1, ha2⟩ := nicePar_parts ha
  obtain ⟨hb1, hb2⟩ := nicePar_parts hb
  have h1 : headNonWs (a ++ '\n' :: '\n' :: b) = true := headNonWs_append_of ha1
  have h2 : headNonWs (a ++ '\n' :: '\n' :: b).reverse = true := by
    have hrev : (a ++ '\n' :: '\n' :: b).reverse =
        b.reverse ++ '\n' :: '\n' :: a.reverse := by
      simp
    rw [hrev]
    exact headNonWs_append_of hb2
  unfold nicePar
  rw [h1, h2]
  rfl

theorem chunkRun (maxSize : Nat) :
    ∀ (ps : List (List Char)) (chs : List (List Char)) (w body : List Char),
      (∀ p ∈ ps, nicePar p = true ∧ p.length ≤ maxSize) →
      (∀ c ∈ w, c.isWhitespace = true) → nicePar body = true →
      ∃ w' body',
        (ps.foldl (paragraphStep maxSize) (chs, w ++ body)).2 = w' ++ body' ∧
        (∀ c ∈ w', c.isWhitespace = true) ∧ nicePar body' = true ∧
        sepJoin ((ps.foldl (paragraphStep maxSize) (chs, w ++ body)).1 ++ [body']) =
          sepJoin (chs ++ body :: ps) := by
  intro ps
  induction ps with
  | nil =>
    intro chs w body _ hw hb
    exact ⟨w, body, rfl, hw, hb, by simp⟩
  | cons p ps ih =>
    intro chs w body hps hw hb
    obtain ⟨hpn, hpl⟩ := hps p (by simp)
    rw [List.foldl_cons]
    have hstep : paragraphStep maxSize (chs, w ++ body) p =
        if maxSize < ((w ++ body) ++ p).length then
          (chs ++ [pyStrip (w ++ body)], p)
        else (chs, (w ++ body) ++ '\n' :: '\n' :: p) := by
      simp only [paragraphStep, if_neg (Nat.not_lt.2 hpl)]
    by_cases hcond : maxSize < ((w ++ body) ++ p).length
    · rw [hstep, if_pos hcond]
      have hstrip : pyStrip (w ++ body) = body := by
        rw [pyStrip_ws_append hw, pyStrip_of_nicePar hb]
      rw [hstrip]
      have hp' : (chs ++ [body], p) = (chs ++ [body], ([] : List Char) ++ p) := by
        simp
      rw [hp']
      obtain ⟨w', body', h1, h2, h3, h4⟩ :=
        ih (chs ++ [body]) [] p (fun q hq => hps q (by simp [hq])) (by simp) hpn
      refine ⟨w', body', h1, h2, h3, ?_⟩
      rw [h4]
      simp
    · rw [hstep, if_neg hcond]
      have hshape : (w ++ body) ++ '\n' :: '\n' :: p =
          w ++ (body ++ '\n' :: '\n' :: p) := by
        simp [List.append_assoc]
      rw [hshape]
      obtain ⟨w', body', h1, h2, h3, h4⟩ :=
        ih chs w (body ++ '\n' :: '\n' :: p) (fun q hq => hps q (by simp [hq])) hw
          (nicePar_sep_append hb hpn)
      refine ⟨w', body', h1, h2, h3, ?_⟩
      rw [h4, sepJoin_append_cons]

/-- C1 (amended): when every paragraph of the document (split on the
`"\n\n"` separator) begins and ends with a non-whitespace character and
has length at most `max_size`, joining the returned chunks with the
paragraph separator reproduces the document exactly — in particular the
chunks are consecutive, non-overlapping segments.  (As stated, the claim
is false: see the counterexample — the oversized-paragraph path drops
the `[.!?]+` sentence delimiters and flushing strips whitespace, losses
beyond the single-long-unit truncation case.) -/
theorem chunk_concat_reconstructs (maxSize : Nat) (text : List Char)
    (h : ∀ p ∈ splitParagraphs text, nicePar p = true ∧ p.length ≤ maxSize) :
    sepJoin (chunk_text maxSize text) = text := by
  obtain ⟨p, ps, hps⟩ : ∃ p ps, splitParagraphs text = p :: ps := by
    cases hsp : splitParagraphs text with
    | nil => exact absurd hsp (splitParagraphs_ne_nil text)
    | cons a l => exact ⟨a, l, rfl⟩
  obtain ⟨hpn, hpl⟩ := h p (by rw [hps]; simp)
  simp only [chunk_text]
  rw [hps, List.foldl_cons]
  have hstep : paragraphStep maxSize ([], []) p = ([], ['\n', '\n'] ++ p) := by
    simp only [paragraphStep, if_neg (Nat.not_lt.2 (by simpa using hpl))]
    rw [if_neg (by simpa using Nat.not_lt.2 hpl)]
    rfl
  rw [hstep]
  obtain ⟨w', body', h1, h2, h3, h4⟩ :=
    chunkRun maxSize ps [] ['\n', '\n'] p
      (fun q hq => h q (by rw [hps]; simp [hq])) (by decide) hpn
  have hstrip : pyStrip ((ps.foldl (paragraphStep maxSize) ([], ['\n', '\n'] ++ p)).2) =
      body' := by
    rw [h1, pyStrip_ws_append h2, pyStrip_of_nicePar h3]
  rw [hstrip, if_pos (nicePar_ne_nil h3)]
  rw [h4]
  have := sepJoin_splitParagraphs text
  rw [hps] at this
  simpa using this

/-! ## Substring checks are insensitive to the outer `strip` -/

theorem sub_peel_front {w l sub : List Char}
    (hw : ∀ c ∈ w, c.isWhitespace = true)
    (hsub : ∀ c ∈ sub, c.isWhitespace = false) (hne : sub ≠ [])
    (h : sub <:+: w ++ l) : sub <:+: l := by
  induction w with
  | nil => simpa using h
  | cons c w ih =>
    obtain ⟨s, t, hst⟩ := h
    cases s with
    | nil =>
      exfalso
      cases sub with
      | nil => exact hne rfl
      | cons d ds =>
        simp only [List.nil_append, List.cons_append, List.cons.injEq] at hst
        obtain ⟨rfl, -⟩ := hst
        exact absurd (hw d (by simp)) (by simp [hsub d (by simp)])
    | cons e s' =>
      simp only [List.cons_append, List.cons.injEq] at hst
      exact ih (fun x hx => hw x (by simp [hx])) ⟨s', t, hst.2⟩

theorem sub_peel_back {w l sub : List Char}
    (hw : ∀ c ∈ w, c.isWhitespace = true)
    (hsub : ∀ c ∈ sub, c.isWhitespace = false) (hne : sub ≠ [])
    (h : sub <:+: l ++ w) : sub <:+: l := by
  have h1 : sub.reverse <:+: w.reverse ++ l.reverse := by
    obtain ⟨s, t, hst⟩ := h
    refine ⟨t.reverse, s.reverse, ?_⟩
    have := congrArg List.reverse hst
    simpa [List.append_assoc] using this
  have h2 := sub_peel_front (fun c hc => hw c (by simpa using hc))
    (fun c hc => hsub c (by simpa using hc)) (by simpa using hne) h1
  obtain ⟨s, t, hst⟩ := h2
  refine ⟨t.reverse, s.reverse, ?_⟩
  have := congrArg List.reverse hst
  simpa [List.append_assoc] using this

theorem pyStrip_decomp (l : List Char) :
    ∃ w₁ w₂, l = w₁ ++ pyStrip l ++ w₂ ∧
      (∀ c ∈ w₁, c.isWhitespace = true) ∧ (∀ c ∈ w₂, c.isWhitespace = true) := by
  refine ⟨l.takeWhile Char.isWhitespace,
    ((l.dropWhile Char.isWhitespace).reverse.takeWhile Char.isWhitespace).reverse,
    ?_, ?_, ?_⟩
  · have hmid : l.dropWhile Char.isWhitespace = pyStrip l ++
        ((l.dropWhile Char.isWhitespace).reverse.takeWhile Char.isWhitespace).reverse := by
      conv_lhs => rw [← (l.dropWhile Char.isWhitespace).reverse_reverse,
        ← List.takeWhile_append_dropWhile (p := Char.isWhitespace)
          (l := (l.dropWhile Char.isWhitespace).reverse)]
      rw [List.reverse_append]
      rfl
    conv_lhs => rw [← List.takeWhile_append_dropWhile (p := Char.isWhitespace)
      (l := l), hmid]
    simp [List.append_assoc]
  · exact fun c hc => by simpa using List.mem_takeWhile_imp hc
  · intro c hc
    rw [List.mem_reverse] at hc
    simpa using List.mem_takeWhile_imp hc

theorem toLower_ws {c : Char} (h : c.isWhitespace = true) : c.toLower = c := by
  have h4 := h
  simp only [Char.isWhitespace, Bool.or_eq_true, decide_eq_true_eq] at h4
  rcases h4 with ((rfl | rfl) | rfl) | rfl <;> decide

theorem map_toLower_allWs {w : List Char}
    (hw : ∀ c ∈ w, c.isWhitespace = true) : w.map Char.toLower = w := by
  induction w with
  | nil => rfl
  | cons c w ih =>
    simp [toLower_ws (hw c (by simp)), ih (fun x hx => hw x (by simp [hx]))]

theorem sub_lower_strip {r sub : List Char} (hne : sub ≠ [])
    (hsub : ∀ c ∈ sub, c.isWhitespace = false) :
    (sub <:+: (pyStrip r).map Char.toLower) ↔ (sub <:+: r.map Char.toLower) := by
  obtain ⟨w₁, w₂, hdec, hw₁, hw₂⟩ := pyStrip_decomp r
  have hmap : r.map Char.toLower = w₁ ++ (pyStrip r).map Char.toLower ++ w₂ := by
    conv_lhs => rw [hdec]
    simp [map_toLower_allWs hw₁, map_toLower_allWs hw₂]
  constructor
  · intro h
    rw [hmap]
    obtain ⟨s, t, hst⟩ := h
    exact ⟨w₁ ++ s, t ++ w₂, by rw [← hst]; simp [List.append_assoc]⟩
  · intro h
    rw [hmap] at h
    have h1 : sub <:+: w₁ ++ ((pyStrip r).map Char.toLower ++ w₂) := by
      simpa [List.append_assoc] using h
    exact sub_peel_back hw₂ hsub hne (sub_peel_front hw₁ hsub hne h1)

theorem hasSub_lower_strip (r : List Char) (w : String) (hne : lit w ≠ [])
    (hws : ∀ c ∈ lit w, c.isWhitespace = false) :
    hasSub ((pyStrip r).map Char.toLower) (lit w) =
      hasSub (r.map Char.toLower) (lit w) := by
  unfold hasSub
  exact decide_eq_decide.2 (sub_lower_strip hne hws)

/-! ## Claim theorems -/

/-- C1 (counterexample): on `"ab.cd"` with `max_size = 4` the oversized
paragraph is sentence-split and the `.` delimiter is dropped, so no
concatenation of the chunks — plain, separator-joined, or
whitespace-stripped — reproduces the document, although no single
sentence exceeds `max_size` (the truncation exception does not apply). -/
theorem chunk_concat_counterexample :
    chunk_text 4 (lit "ab.cd") = [lit "abcd"] ∧
    (∀ s ∈ sentencesOver 4 (lit "ab.cd"), s.length ≤ 4) ∧
    (chunk_text 4 (lit "ab.cd")).flatten ≠ lit "ab.cd" ∧
    sepJoin (chunk_text 4 (lit "ab.cd")) ≠ lit "ab.cd" := by decide

/-- C1 (witness): the amended reconstruction theorem applied to
`"ab\n\ncd\n\nef"` with `max_size = 4`. -/
theorem chunk_concat_reconstructs_witness :
    (∀ p ∈ splitParagraphs (lit "ab\n\ncd\n\nef"),
      nicePar p = true ∧ p.length ≤ 4) ∧
    sepJoin (chunk_text 4 (lit "ab\n\ncd\n\nef")) = lit "ab\n\ncd\n\nef" :=
  ⟨by decide, chunk_concat_reconstructs 4 (lit "ab\n\ncd\n\nef") (by decide)⟩

/-- C3 (counterexample): on `"ab\n\ncd\n\nef"` with `max_size = 4` no
paragraph is oversized, so no sentence splitting and no truncation can
occur (`sentencesOver` is empty), yet a returned chunk has length 6 > 4:
the paragraph-append check `len(current_chunk + paragraph) > max_size`
does not count the injected `"\n\n"` separator. -/
theorem chunk_size_counterexample :
    sentencesOver 4 (lit "ab\n\ncd\n\nef") = [] ∧
    ∃ c ∈ chunk_text 4 (lit "ab\n\ncd\n\nef"), 4 < c.length := by decide

/-- C3 (amended): every chunk has length at most `max_size + 2`, except
chunks consisting of a single unsplittable sentence longer than
`max_size`: such a sentence is truncated to `max_size` when the buffer
was empty, but when the buffer was non-empty it becomes the buffer and is
later emitted whole (whitespace-stripped), shedding nothing. -/
theorem chunk_size_bound (maxSize : Nat) (text : List Char) :
    ∀ c ∈ chunk_text maxSize text, c.length ≤ maxSize + 2 ∨
      ∃ s ∈ sentencesOver maxSize text, maxSize < s.length ∧ c = pyStrip s := by
  intro c hc
  have H := paragraphFold_size maxSize text (splitParagraphs text) ([], [])
    (fun p hp => hp) (by simp) (Or.inl (by simp))
  simp only [chunk_text] at hc
  split at hc
  · rcases List.mem_append.1 hc with h1 | h1
    · exact H.1 c h1
    · have hc' : c = pyStrip
          ((splitParagraphs text).foldl (paragraphStep maxSize) ([], [])).2 := by
        simpa using h1
      rcases H.2 with h2 | ⟨s, hs, hlt, he⟩
      · exact Or.inl (hc' ▸ le_trans (pyStrip_length_le _) h2)
      · exact Or.inr ⟨s, hs, hlt, by rw [hc', he]⟩
  · exact H.1 c hc

/-- C3 (witness): the size bound applied to the chunk `"cd\n\nef"` of
the counterexample input. -/
theorem chunk_size_bound_witness :
    lit "cd\n\nef" ∈ chunk_text 4 (lit "ab\n\ncd\n\nef") ∧
    ((lit "cd\n\nef").length ≤ 4 + 2 ∨
      ∃ s ∈ sentencesOver 4 (lit "ab\n\ncd\n\nef"), 4 < s.length ∧
        lit "cd\n\nef" = pyStrip s) :=
  ⟨by decide, chunk_size_bound 4 (lit "ab\n\ncd\n\nef") (lit "cd\n\nef") (by decide)⟩

/-- C4 (counterexample): two non-empty inputs on which the chunker
returns the empty sequence — a whitespace-only text (everything is
stripped away) and, for a threshold the text exceeds, a text of only
sentence punctuation (all its characters are `re.split` delimiters). -/
theorem chunk_nonempty_counterexample :
    (lit " " ≠ [] ∧ chunk_text 4000 (lit " ") = []) ∧
    (lit ".." ≠ [] ∧ chunk_text 1 (lit "..") = []) := by decide

/-- C4 (amended): for every input containing at least one character that
is neither whitespace nor sentence-ending punctuation (`.`, `!`, `?`),
the chunker returns a non-empty sequence. -/
theorem chunk_nonempty_of_content (maxSize : Nat) (text : List Char)
    (h : ∃ c ∈ text, c.isWhitespace = false ∧ isSentEnd c = false) :
    chunk_text maxSize text ≠ [] := by
  obtain ⟨c, hc, hw, hse⟩ := h
  intro hnil
  simp only [chunk_text] at hnil
  split at hnil
  · exact absurd hnil (by simp)
  · have hkeep := paragraphFold_keep maxSize (splitParagraphs text) ([], [])
      (by rw [hnil]) c hse
    have hpar : ∃ p ∈ splitParagraphs text, c ∈ p := by
      have hmem : c ∈ sepJoin (splitParagraphs text) := by
        rw [sepJoin_splitParagraphs]; exact hc
      rcases mem_sepJoin hmem with h1 | rfl
      · exact h1
      · simp [Char.isWhitespace] at hw
    have hcur := hkeep (Or.inr hpar)
    rename_i hstr
    have : pyStrip ((splitParagraphs text).foldl (paragraphStep maxSize) ([], [])).2
        ≠ [] := pyStrip_ne_nil hcur hw
    simp at hstr
    exact this hstr

/-- C4 (witness): the amended non-emptiness theorem applied to `"ab"`. -/
theorem chunk_nonempty_of_content_witness :
    ('a' ∈ lit "ab" ∧ 'a'.isWhitespace = false ∧ isSentEnd 'a' = false) ∧
    chunk_text 4 (lit "ab") ≠ [] :=
  ⟨by decide, chunk_nonempty_of_content 4 (lit "ab") ⟨'a', by decide, by decide, by decide⟩⟩

theorem length_filter_partition {α : Type} (p : α → Bool) (l : List α) :
    (l.filter (fun a => !p a)).length + (l.filter p).length = l.length := by
  induction l with
  | nil => rfl
  | cons a l ih =>
    by_cases h : p a = true
    · simp [List.filter_cons, h, ← ih]
      omega
    · have ha : p a = false := eq_false_of_ne_true h
      simp [List.filter_cons, ha, ← ih]
      omega

theorem isError_analyze_single_file
    (run : List Char → Except (List Char) TextAnalysis) (doc : BatchDoc) :
    isErrorOutcome (analyze_single_file run doc) = docFails run doc := by
  unfold analyze_single_file docFails
  rcases doc with ⟨file, content⟩
  cases content with
  | error e => rfl
  | ok text =>
    by_cases he : (pyStrip text).isEmpty = true
    · simp [he, isErrorOutcome]
    · simp only [he, Bool.false_eq_true, if_false, eq_false_of_ne_true he,
        Bool.false_or]
      cases run text with
      | error e => rfl
      | ok a => rfl

/-- C2: the batch driver returns one outcome per submitted document
(length `N`); its error outcomes are exactly the documents whose
per-document task fails (count `K`), each error outcome carrying the
raised error's message (or the empty-file message); success and error
counts partition `N`; and the outcome at every index is a function of
that document alone, so no document's failure can abort or block the
others. -/
theorem batch_outcomes_partition
    (run : List Char → Except (List Char) TextAnalysis)
    (docs : List BatchDoc) :
    (process_files run docs).length = docs.length ∧
    ((process_files run docs).filter isErrorOutcome).length =
      (docs.filter (docFails run)).length ∧
    ((process_files run docs).filter (fun o => !isErrorOutcome o)).length +
      ((process_files run docs).filter isErrorOutcome).length = docs.length ∧
    (∀ i : Nat, (process_files run docs)[i]? =
      (docs[i]?).map (analyze_single_file run)) ∧
    (∀ doc : BatchDoc, ∀ m : List Char, doc.content = Except.error m →
      analyze_single_file run doc = BatchOutcome.error doc.file m) ∧
    (∀ doc : BatchDoc, ∀ text m : List Char, doc.content = Except.ok text →
      (pyStrip text).isEmpty = false → run text = Except.error m →
      analyze_single_file run doc = BatchOutcome.error doc.file m) := by
  refine ⟨by simp [process_files], ?_, ?_, ?_, ?_, ?_⟩
  · unfold process_files
    rw [List.filter_map]
    simp only [List.length_map]
    congr 1
    apply List.filter_congr
    intro doc _
    exact isError_analyze_single_file run doc
  · have := length_filter_partition isErrorOutcome (process_files run docs)
    simpa [process_files] using this
  · intro i
    simp [process_files]
  · intro doc m h
    unfold analyze_single_file
    rw [h]
  · intro doc text m h he hr
    unfold analyze_single_file
    rw [h]
    simp only [he, Bool.false_eq_true, if_false, hr]

/-- C2 (witness): the partition theorem applied to four concrete
documents of which three fail (unreadable, empty, analysis error). -/
theorem batch_outcomes_partition_witness :
    (process_files batchRun batchDocs).length = 4 ∧
    ((process_files batchRun batchDocs).filter isErrorOutcome).length = 3 ∧
    analyze_single_file batchRun ⟨lit "b.txt", Except.error (lit "unreadable")⟩ =
      BatchOutcome.error (lit "b.txt") (lit "unreadable") := by
  obtain ⟨h1, h2, -, -, h5, h6⟩ := batch_outcomes_partition batchRun batchDocs
  refine ⟨by rw [h1]; decide, by rw [h2]; decide, h5 _ _ rfl⟩

/-- C5: modelling the inference client as an oracle of responses, a
document chunking into a single chunk makes summary generation issue
exactly one (chunk-summary) call and return its output verbatim, with no
consolidation call; a document chunking into 3 chunks makes it issue
exactly the 3 chunk-summary calls followed by exactly one consolidation
call, whose output (the 4th response) is the returned summary. -/
theorem summary_call_protocol (respond : Oracle) (maxSize : Nat)
    (text : List Char) :
    ((chunk_text maxSize text).length = 1 →
      generate_detailed_summary respond maxSize text =
        some (respond 0, [SummaryCall.chunkSummary 1 1])) ∧
    ((chunk_text maxSize text).length = 3 →
      generate_detailed_summary respond maxSize text =
        some (respond 3, [SummaryCall.chunkSummary 1 3, SummaryCall.chunkSummary 2 3,
          SummaryCall.chunkSummary 3 3, SummaryCall.consolidation])) := by
  constructor
  · intro h
    simp only [generate_detailed_summary, h]
    rfl
  · intro h
    simp only [generate_detailed_summary, h]
    rfl

/-- C5 (witness): the protocol applied to a one-chunk and a three-chunk
document. -/
theorem summary_call_protocol_witness :
    ((chunk_text 4 (lit "ab")).length = 1 ∧
      generate_detailed_summary constResp 4 (lit "ab") =
        some (constResp 0, [SummaryCall.chunkSummary 1 1])) ∧
    ((chunk_text 2 (lit "ab\n\ncd\n\nef")).length = 3 ∧
      generate_detailed_summary constResp 2 (lit "ab\n\ncd\n\nef") =
        some (constResp 3, [SummaryCall.chunkSummary 1 3, SummaryCall.chunkSummary 2 3,
          SummaryCall.chunkSummary 3 3, SummaryCall.consolidation])) :=
  ⟨⟨by decide, (summary_call_protocol constResp 4 (lit "ab")).1 (by decide)⟩,
   ⟨by decide, (summary_call_protocol constResp 2 (lit "ab\n\ncd\n\nef")).2 (by decide)⟩⟩

/-- C6 (counterexample): with 21 distinct chunk-level keywords the
consolidation call is issued, and its comma-split response is returned
capped but *not* re-deduplicated: the model response `"x,x"` yields the
duplicated keyword list `["x", "x"]`, refuting "the keyword list returned
is deduplicated". -/
theorem keywords_dedup_counterexample :
    20 < (keywordUnion kwOracle 4 (lit "ab")).length ∧
    (extract_keywords kwOracle 4 (lit "ab")).1 = [lit "x", lit "x"] ∧
    ¬ (extract_keywords kwOracle 4 (lit "ab")).1.Nodup := by decide

/-- C6 (amended): the keyword list is always capped at 20 regardless of
model compliance; when the deduplicated union of chunk keywords has at
most 20 entries the result is that union (deduplicated, no consolidation
call); when it exceeds 20, exactly one further consolidation call is
issued and the capped consolidation response is returned without
re-deduplication. -/
theorem keywords_cap_and_consolidation (respond : Oracle) (maxSize : Nat)
    (text : List Char) :
    (extract_keywords respond maxSize text).1.length ≤ 20 ∧
    ((keywordUnion respond maxSize text).length ≤ 20 →
      (extract_keywords respond maxSize text).1 =
        (keywordUnion respond maxSize text).take 20 ∧
      (extract_keywords respond maxSize text).1.Nodup ∧
      (extract_keywords respond maxSize text).2 =
        (chunk_text maxSize text).length) ∧
    (20 < (keywordUnion respond maxSize text).length →
      (extract_keywords respond maxSize text).2 =
        (chunk_text maxSize text).length + 1) := by
  by_cases h : 20 < (keywordUnion respond maxSize text).length
  · refine ⟨?_, fun hle => absurd h (by omega), fun _ => ?_⟩
    · simp only [extract_keywords, if_pos h]
      exact List.length_take_le 20 _
    · simp only [extract_keywords, if_pos h]
  · refine ⟨?_, fun _ => ⟨?_, ?_, ?_⟩, fun hlt => absurd hlt h⟩
    · simp only [extract_keywords, if_neg h]
      exact List.length_take_le 20 _
    · simp only [extract_keywords, if_neg h]
    · simp only [extract_keywords, if_neg h]
      exact List.Nodup.sublist (List.take_sublist 20 _) (List.nodup_dedup _)
    · simp only [extract_keywords, if_neg h]

/-- C6 (witness): the cap theorem applied to a single-chunk document
whose union stays below the threshold. -/
theorem keywords_cap_witness :
    (extract_keywords constResp 4 (lit "ab")).1.length ≤ 20 ∧
    ((keywordUnion constResp 4 (lit "ab")).length ≤ 20 ∧
      (extract_keywords constResp 4 (lit "ab")).1.Nodup) :=
  ⟨(keywords_cap_and_consolidation constResp 4 (lit "ab")).1,
   by decide,
   ((keywords_cap_and_consolidation constResp 4 (lit "ab")).2.1 (by decide)).2.1⟩

/-- C7 (counterexample): the structural speaker path returns the
deduplicated matched labels with no cap and no model call — a transcript
with eleven distinct `LABEL:` lines yields eleven speakers, refuting "the
speaker list at most 10 ... including the structural-pattern path". -/
theorem caps_speakers_counterexample :
    (identify_speakers constResp elevenSpeakers).2 = 0 ∧
    10 < (identify_speakers constResp elevenSpeakers).1.length := by decide

/-- C7 (amended): for arbitrary model outputs the topic list has length
at most 8, the insight list at most 7 and the quote list at most 8; the
speaker list has length at most 10 on the model-fallback path (when the
structural pattern finds no match) — on the structural path all
deduplicated labels are returned, uncapped. -/
theorem list_caps_enforced (respond : Oracle) (text : List Char) :
    (extract_key_topics respond text).1.length ≤ 8 ∧
    (extract_main_insights respond text).1.length ≤ 7 ∧
    (extract_highlight_quotes respond text).1.length ≤ 8 ∧
    (speaker_patterns text = [] →
      (identify_speakers respond text).1.length ≤ 10) := by
  refine ⟨List.length_take_le 8 _, List.length_take_le 7 _,
    List.length_take_le 8 _, fun h => ?_⟩
  simp only [identify_speakers, h]
  split
  · rename_i hcontra
    exact absurd rfl hcontra
  · split
    · simp
    · exact List.length_take_le 10 _

/-- C7 (witness): the cap theorem applied to a text without structural
speaker patterns. -/
theorem list_caps_enforced_witness :
    speaker_patterns (lit "hi") = [] ∧
    (extract_key_topics constResp (lit "hi")).1.length ≤ 8 ∧
    (identify_speakers constResp (lit "hi")).1.length ≤ 10 :=
  ⟨by decide, (list_caps_enforced constResp (lit "hi")).1,
   (list_caps_enforced constResp (lit "hi")).2.2.2 (by decide)⟩

/-- C8: the interview analysis is composed on top of the single base
analysis of the same run — each base field (keywords, summary,
key_topics, sentiment, word_count, reading_time, speakers) of the
`InterviewAnalysis` is exactly the corresponding field of the
`TextAnalysis` that `analyze_text` produced, never re-derived or
overridden by the specialized pass. -/
theorem interview_preserves_base_fields (respond : Oracle) (maxSize : Nat)
    (text : List Char) (base : TextAnalysis) (c : Nat)
    (h : analyze_text respond maxSize text = some (base, c)) :
    ∃ ia c', analyze_interview respond maxSize text = some (ia, c') ∧
      ia.keywords = base.keywords ∧ ia.summary = base.summary ∧
      ia.key_topics = base.key_topics ∧ ia.sentiment = base.sentiment ∧
      ia.word_count = base.word_count ∧ ia.reading_time = base.reading_time ∧
      ia.speakers = base.speakers := by
  unfold analyze_interview
  rw [h]
  refine ⟨_, _, rfl, rfl, rfl, rfl, rfl, rfl, rfl, rfl⟩

/-- C8 (witness): base-field preservation applied to the document
`"ab"` with the constant oracle. -/
theorem interview_preserves_base_fields_witness :
    analyze_text constResp 4 (lit "ab") = some (baseW, 5) ∧
    ∃ ia c', analyze_interview constResp 4 (lit "ab") = some (ia, c') ∧
      ia.keywords = baseW.keywords ∧ ia.summary = baseW.summary ∧
      ia.key_topics = baseW.key_topics ∧ ia.sentiment = baseW.sentiment ∧
      ia.word_count = baseW.word_count ∧ ia.reading_time = baseW.reading_time ∧
      ia.speakers = baseW.speakers :=
  ⟨by decide,
   interview_preserves_base_fields constResp 4 (lit "ab") baseW 5 (by decide)⟩

theorem analyze_text_fields (respond : Oracle) (maxSize : Nat)
    (text : List Char) (a : TextAnalysis) (c : Nat)
    (h : analyze_text respond maxSize text = some (a, c)) :
    a.word_count = (pyWords text).length ∧
    a.reading_time = max 1 ((pyWords text).length / 200) := by
  simp only [analyze_text] at h
  split at h
  · exact absurd h (by simp)
  · simp only [Option.some.injEq, Prod.mk.injEq] at h
    obtain ⟨h1, h2⟩ := h
    subst h1
    exact ⟨rfl, rfl⟩

/-- C9: every analysis the Extractor produces has
`word_count = len(text.split())` (the whitespace-delimited token count)
and `reading_time = max(1, word_count // 200) ≥ 1`; every interview
analysis the Specializer produces additionally has
`duration_estimate = max(1, word_count // 165) ≥ 1`. -/
theorem reading_time_duration_invariant (respond : Oracle) (maxSize : Nat)
    (text : List Char) :
    (∀ (a : TextAnalysis) (c : Nat),
      analyze_text respond maxSize text = some (a, c) →
      a.word_count = (pyWords text).length ∧
      a.reading_time = max 1 (a.word_count / 200) ∧ 1 ≤ a.reading_time) ∧
    (∀ (ia : InterviewAnalysis) (c : Nat),
      analyze_interview respond maxSize text = some (ia, c) →
      ia.duration_estimate = max 1 (ia.word_count / 165) ∧
      1 ≤ ia.duration_estimate) := by
  constructor
  · intro a c h
    obtain ⟨h1, h2⟩ := analyze_text_fields respond maxSize text a c h
    exact ⟨h1, by rw [h2, h1], by rw [h2]; exact Nat.le_max_left 1 _⟩
  · intro ia c h
    simp only [analyze_interview] at h
    split at h
    · exact absurd h (by simp)
    · rename_i base c0 heq
      obtain ⟨hwc, -⟩ := analyze_text_fields respond maxSize text base c0 heq
      simp only [Option.some.injEq, Prod.mk.injEq] at h
      obtain ⟨h1, h2⟩ := h
      subst h1
      refine ⟨?_, Nat.le_max_left 1 _⟩
      show estimate_interview_duration text = max 1 (base.word_count / 165)
      rw [hwc]
      rfl

/-- C9 (witness): the invariants applied to the document `"ab"` with the
constant oracle. -/
theorem reading_time_duration_invariant_witness :
    analyze_text constResp 4 (lit "ab") = some (baseW, 5) ∧
    (baseW.word_count = (pyWords (lit "ab")).length ∧
      baseW.reading_time = max 1 (baseW.word_count / 200) ∧
      1 ≤ baseW.reading_time) ∧
    analyze_interview constResp 4 (lit "ab") = some (iaW, 10) ∧
    (iaW.duration_estimate = max 1 (iaW.word_count / 165) ∧
      1 ≤ iaW.duration_estimate) :=
  ⟨by decide,
   (reading_time_duration_invariant constResp 4 (lit "ab")).1 baseW 5 (by decide),
   by decide,
   (reading_time_duration_invariant constResp 4 (lit "ab")).2 iaW 10 (by decide)⟩

/-- C10: sentiment normalization is the fixed-priority substring rule on
the lowercased response: it returns `"Positive"` if the lowercased text
contains `"positivo"` or `"positive"`; otherwise `"Negative"` if it
contains `"negativo"` or `"negative"`; otherwise `"Mixed"` if it contains
`"mixto"` or `"mixed"`; otherwise `"Neutral"` — and the result is always
exactly one of the four canonical labels.  (The source checks the
stripped-and-lowercased response; stripping cannot change the outcome
because the label substrings contain no whitespace.) -/
theorem sentiment_normalization_rule (r : List Char) :
    (sentLabelHit (r.map Char.toLower) "positivo" "positive" = true →
      sentimentNormalize r = lit "Positive") ∧
    (sentLabelHit (r.map Char.toLower) "positivo" "positive" = false →
      sentLabelHit (r.map Char.toLower) "negativo" "negative" = true →
      sentimentNormalize r = lit "Negative") ∧
    (sentLabelHit (r.map Char.toLower) "positivo" "positive" = false →
      sentLabelHit (r.map Char.toLower) "negativo" "negative" = false →
      sentLabelHit (r.map Char.toLower) "mixto" "mixed" = true →
      sentimentNormalize r = lit "Mixed") ∧
    (sentLabelHit (r.map Char.toLower) "positivo" "positive" = false →
      sentLabelHit (r.map Char.toLower) "negativo" "negative" = false →
      sentLabelHit (r.map Char.toLower) "mixto" "mixed" = false →
      sentimentNormalize r = lit "Neutral") ∧
    (sentimentNormalize r = lit "Positive" ∨ sentimentNormalize r = lit "Negative" ∨
      sentimentNormalize r = lit "Mixed" ∨ sentimentNormalize r = lit "Neutral") := by
  have e1 := hasSub_lower_strip r "positivo" (by decide) (by decide)
  have e2 := hasSub_lower_strip r "positive" (by decide) (by decide)
  have e3 := hasSub_lower_strip r "negativo" (by decide) (by decide)
  have e4 := hasSub_lower_strip r "negative" (by decide) (by decide)
  have e5 := hasSub_lower_strip r "mixto" (by decide) (by decide)
  have e6 := hasSub_lower_strip r "mixed" (by decide) (by decide)
  have hnorm : sentimentNormalize r =
      (if sentLabelHit (r.map Char.toLower) "positivo" "positive" then lit "Positive"
       else if sentLabelHit (r.map Char.toLower) "negativo" "negative" then
         lit "Negative"
       else if sentLabelHit (r.map Char.toLower) "mixto" "mixed" then lit "Mixed"
       else lit "Neutral") := by
    simp only [sentimentNormalize, sentLabelHit, e1, e2, e3, e4, e5, e6]
  rw [hnorm]
  refine ⟨fun h1 => by simp [h1], fun h1 h2 => by simp [h1, h2],
    fun h1 h2 h3 => by simp [h1, h2, h3], fun h1 h2 h3 => by simp [h1, h2, h3], ?_⟩
  by_cases h1 : sentLabelHit (r.map Char.toLower) "positivo" "positive" = true
  · simp [h1]
  · by_cases h2 : sentLabelHit (r.map Char.toLower) "negativo" "negative" = true
    · simp [eq_false_of_ne_true h1, h2]
    · by_cases h3 : sentLabelHit (r.map Char.toLower) "mixto" "mixed" = true
      · simp [eq_false_of_ne_true h1, eq_false_of_ne_true h2, h3]
      · simp [eq_false_of_ne_true h1, eq_false_of_ne_true h2, eq_false_of_ne_true h3]

/-- C10 (witness): the normalization rule applied to a response whose
lowercase form contains `"positive"` (and also `"mixed"`, exercising the
priority order). -/
theorem sentiment_normalization_rule_witness :
    sentLabelHit ((lit " Mixed but POSITIVE ").map Char.toLower)
      "positivo" "positive" = true ∧
    sentimentNormalize (lit " Mixed but POSITIVE ") = lit "Positive" :=
  ⟨by decide,
   (sentiment_normalization_rule (lit " Mixed but POSITIVE ")).1 (by decide)⟩
